import Mathlib

/-!
Verification development for the NCA (Neighborhood Components Analysis)
implementation in `metric_learn/nca.py`.

The numeric pipeline of `NCA._loss_grad_lbfgs` is embedded over the real
numbers (exact arithmetic).  The source fills the diagonal of the squared
pairwise-distance matrix with `np.inf` before the softmax; since the only
use of that infinite diagonal is `exp(-inf) = 0` (both in the softmax
numerator and inside `logsumexp`), the embedding represents the entries of
`exp(-p_ij)` directly, with the diagonal set to `0`.

Mutable instance state (`self.n_iter_`, `self.verbose`, ...) is modelled by
an explicit `NCAModel` record threaded through the evaluator, and the
`scipy.optimize.minimize` call is treated as an external collaborator whose
result (`x`, `success`, `message`, `nit`) is a parameter of the model of the
tail of `NCA.fit`.
-/

open Matrix

/-- Machine epsilon of IEEE double precision: the value of the source's
`EPS = np.finfo(float).eps`, which is `2 ^ (-52)`. -/
noncomputable def EPS : ℝ := 1 / 2 ^ 52

/-- Model of the mutable state of an `NCA` instance that `fit` and
`_loss_grad_lbfgs` read or write: the constructor parameters together with
the call counter `n_iter_`. -/
structure NCAModel where
  num_dims : Option ℕ
  max_iter : ℕ
  tol : Option ℝ
  verbose : Bool
  n_iter : ℕ

/-- Reshape of a flattened length `k * d` vector into a `k × d` matrix,
row-major as in numpy: `A.reshape(-1, X.shape[1])` (for the typed model the
divisibility is built into the length). -/
def reshape (k d : ℕ) (a : Fin (k * d) → ℝ) : Matrix (Fin k) (Fin d) ℝ :=
  Matrix.of fun i j =>
    a ⟨i.1 * d + j.1, by
      have hi : i.1 < k := i.isLt
      have hj : j.1 < d := j.isLt
      calc i.1 * d + j.1 < i.1 * d + d := by omega
        _ = (i.1 + 1) * d := by ring
        _ ≤ k * d := Nat.mul_le_mul_right d hi⟩

/-- Row-major flattening of a `k × d` matrix into a length `k * d` vector,
as in numpy's `ravel()`. -/
def ravel {k d : ℕ} (G : Matrix (Fin k) (Fin d) ℝ) : Fin (k * d) → ℝ :=
  fun idx =>
    G ⟨idx.1 / d, by
        have h := idx.isLt
        have hd : 0 < d := Nat.pos_of_ne_zero (by
          intro h0
          exact absurd h (by subst h0; simp))
        exact (Nat.div_lt_iff_lt_mul hd).mpr (by omega)⟩
      ⟨idx.1 % d, by
        have h := idx.isLt
        have hd : 0 < d := Nat.pos_of_ne_zero (by
          intro h0
          exact absurd h (by subst h0; simp))
        exact Nat.mod_lt _ hd⟩

/-- Source line `X_embedded = np.dot(X, A.T)`. -/
noncomputable def X_embedded {n k d : ℕ} (X : Matrix (Fin n) (Fin d) ℝ)
    (A : Matrix (Fin k) (Fin d) ℝ) : Matrix (Fin n) (Fin k) ℝ :=
  Matrix.of fun i c => ∑ j, X i j * A c j

/-- Source line `p_ij = pairwise_distances(X_embedded, squared=True)`:
squared Euclidean distances between the rows of the embedding. -/
noncomputable def sqDist {n k : ℕ} (Y : Matrix (Fin n) (Fin k) ℝ) :
    Matrix (Fin n) (Fin n) ℝ :=
  Matrix.of fun i j => ∑ c, (Y i c - Y j c) ^ 2

/-- Entrywise `exp(-p_ij)` after the source line
`np.fill_diagonal(p_ij, np.inf)`: the diagonal entry is
`exp(-inf) = 0`, off-diagonal entries are `exp` of the negated squared
distance. -/
noncomputable def expNegD {n k : ℕ} (Y : Matrix (Fin n) (Fin k) ℝ) :
    Matrix (Fin n) (Fin n) ℝ :=
  Matrix.of fun i j => if i = j then 0 else Real.exp (-(sqDist Y i j))

/-- Source expression `logsumexp(-p_ij, axis=1)` (with the infinite
diagonal contributing `exp(-inf) = 0` to the sum). -/
noncomputable def lseRow {n k : ℕ} (Y : Matrix (Fin n) (Fin k) ℝ) (i : Fin n) : ℝ :=
  Real.log (∑ l, expNegD Y i l)

/-- Source line `p_ij = np.exp(-p_ij - logsumexp(-p_ij, axis=1)[:, np.newaxis])`:
for `i ≠ j` the entry is `exp(-D[i][j] - lse[i]) = exp(-D[i][j]) * exp(-lse[i])`,
and on the diagonal `exp(-inf - lse[i]) = 0`. -/
noncomputable def p_ij {n k : ℕ} (Y : Matrix (Fin n) (Fin k) ℝ) :
    Matrix (Fin n) (Fin n) ℝ :=
  Matrix.of fun i j => expNegD Y i j * Real.exp (-(lseRow Y i))

/-- Numeric value of the boolean same-class mask: numpy promotes the boolean
array to `0` / `1` in `p_ij * mask`. -/
def maskMat {n : ℕ} (M : Matrix (Fin n) (Fin n) Bool) : Matrix (Fin n) (Fin n) ℝ :=
  Matrix.of fun i j => if M i j then 1 else 0

/-- Source line `masked_p_ij = p_ij * mask`. -/
noncomputable def masked_p_ij {n k : ℕ} (Y : Matrix (Fin n) (Fin k) ℝ)
    (M : Matrix (Fin n) (Fin n) Bool) : Matrix (Fin n) (Fin n) ℝ :=
  Matrix.of fun i j => p_ij Y i j * maskMat M i j

/-- Source line `p = masked_p_ij.sum(axis=1, keepdims=True)`. -/
noncomputable def pRow {n k : ℕ} (Y : Matrix (Fin n) (Fin k) ℝ)
    (M : Matrix (Fin n) (Fin n) Bool) (i : Fin n) : ℝ :=
  ∑ j, masked_p_ij Y M i j

/-- Source line `loss = p.sum()`. -/
noncomputable def loss {n k : ℕ} (Y : Matrix (Fin n) (Fin k) ℝ)
    (M : Matrix (Fin n) (Fin n) Bool) : ℝ :=
  ∑ i, pRow Y M i

/-- Source line `weighted_p_ij = masked_p_ij - p_ij * p` (`p` broadcast as a
column). -/
noncomputable def weighted_p_ij {n k : ℕ} (Y : Matrix (Fin n) (Fin k) ℝ)
    (M : Matrix (Fin n) (Fin n) Bool) : Matrix (Fin n) (Fin n) ℝ :=
  Matrix.of fun i j => masked_p_ij Y M i j - p_ij Y i j * pRow Y M i

/-- Source lines `weighted_p_ij_sym = weighted_p_ij + weighted_p_ij.T` and
`np.fill_diagonal(weighted_p_ij_sym, - weighted_p_ij.sum(axis=0))`:
the diagonal of the symmetrized matrix is overwritten with the negated
column sums of the unsymmetrized one. -/
noncomputable def weighted_p_ij_sym {n k : ℕ} (Y : Matrix (Fin n) (Fin k) ℝ)
    (M : Matrix (Fin n) (Fin n) Bool) : Matrix (Fin n) (Fin n) ℝ :=
  Matrix.of fun i j =>
    if i = j then -(∑ l, weighted_p_ij Y M l i)
    else weighted_p_ij Y M i j + weighted_p_ij Y M j i

/-- Source line `gradient = 2 * (X_embedded.T.dot(weighted_p_ij_sym)).dot(X)`. -/
noncomputable def gradientMat {n k d : ℕ} (X : Matrix (Fin n) (Fin d) ℝ)
    (A : Matrix (Fin k) (Fin d) ℝ) (M : Matrix (Fin n) (Fin n) Bool) :
    Matrix (Fin k) (Fin d) ℝ :=
  Matrix.of fun c j =>
    2 * ∑ l, (∑ i, X_embedded X A i c * weighted_p_ij_sym (X_embedded X A) M i l) * X l j

/-- Result of one call to `_loss_grad_lbfgs`: the updated instance state,
the progress rows printed when `verbose` (pairs of the counter value and the
unsigned loss), and the returned pair `(sign * loss, sign * gradient.ravel())`. -/
structure EvalResult (k d : ℕ) where
  model : NCAModel
  reports : List (ℕ × ℝ)
  loss : ℝ
  grad : Fin (k * d) → ℝ

/-- Model of `NCA._loss_grad_lbfgs(self, A, X, mask, sign)`: reshapes the
flattened transform, runs the softmax/loss/gradient pipeline, increments the
call counter `self.n_iter_` by one, and returns `sign * loss` and the
flattened `sign * gradient`. -/
noncomputable def lossGradLbfgs {n k d : ℕ} (m : NCAModel) (a : Fin (k * d) → ℝ)
    (X : Matrix (Fin n) (Fin d) ℝ) (M : Matrix (Fin n) (Fin n) Bool) (s : ℝ) :
    EvalResult k d :=
  { model := { m with n_iter := m.n_iter + 1 }
    reports :=
      if m.verbose then [(m.n_iter, loss (X_embedded X (reshape k d a)) M)] else []
    loss := s * loss (X_embedded X (reshape k d a)) M
    grad := fun idx => s * ravel (gradientMat X (reshape k d a) M) idx }

lemma expNegD_nonneg {n k : ℕ} (Y : Matrix (Fin n) (Fin k) ℝ) (i j : Fin n) :
    0 ≤ expNegD Y i j := by
  simp only [expNegD, Matrix.of_apply]
  split
  · exact le_rfl
  · exact (Real.exp_pos _).le

lemma expNegD_row_pos {n k : ℕ} (hn : 1 < n) (Y : Matrix (Fin n) (Fin k) ℝ)
    (i : Fin n) : 0 < ∑ l, expNegD Y i l := by
  have hlt : (i.1 + 1) % n < n := Nat.mod_lt _ (by omega)
  have hv : (i.1 + 1) % n ≠ i.1 := by
    have hi := i.isLt
    rcases Nat.lt_or_ge (i.1 + 1) n with h | h
    · rw [Nat.mod_eq_of_lt h]; omega
    · have he : i.1 + 1 = n := by omega
      rw [he, Nat.mod_self]; omega
  refine Finset.sum_pos' (fun l _ => expNegD_nonneg Y i l)
    ⟨⟨(i.1 + 1) % n, hlt⟩, Finset.mem_univ _, ?_⟩
  have hne : i ≠ (⟨(i.1 + 1) % n, hlt⟩ : Fin n) := by
    intro hcontra
    exact hv (congrArg Fin.val hcontra).symm
  simp only [expNegD, Matrix.of_apply, if_neg hne]
  exact Real.exp_pos _

lemma p_ij_nonneg {n k : ℕ} (Y : Matrix (Fin n) (Fin k) ℝ) (i j : Fin n) :
    0 ≤ p_ij Y i j := by
  simp only [p_ij, Matrix.of_apply]
  exact mul_nonneg (expNegD_nonneg Y i j) (Real.exp_pos _).le

lemma p_ij_diag {n k : ℕ} (Y : Matrix (Fin n) (Fin k) ℝ) (i : Fin n) :
    p_ij Y i i = 0 := by
  simp [p_ij, expNegD]

lemma p_ij_row_sum {n k : ℕ} (hn : 1 < n) (Y : Matrix (Fin n) (Fin k) ℝ)
    (i : Fin n) : ∑ j, p_ij Y i j = 1 := by
  have hS := expNegD_row_pos hn Y i
  simp only [p_ij, Matrix.of_apply, lseRow]
  rw [← Finset.sum_mul, Real.exp_neg, Real.exp_log hS]
  exact mul_inv_cancel₀ hS.ne'

lemma maskMat_nonneg {n : ℕ} (M : Matrix (Fin n) (Fin n) Bool) (i j : Fin n) :
    0 ≤ maskMat M i j := by
  simp only [maskMat, Matrix.of_apply]
  split
  · exact zero_le_one
  · exact le_rfl

lemma maskMat_le_one {n : ℕ} (M : Matrix (Fin n) (Fin n) Bool) (i j : Fin n) :
    maskMat M i j ≤ 1 := by
  simp only [maskMat, Matrix.of_apply]
  split
  · exact le_rfl
  · exact zero_le_one

lemma pRow_nonneg {n k : ℕ} (Y : Matrix (Fin n) (Fin k) ℝ)
    (M : Matrix (Fin n) (Fin n) Bool) (i : Fin n) : 0 ≤ pRow Y M i :=
  Finset.sum_nonneg fun j _ => by
    simp only [masked_p_ij, Matrix.of_apply]
    exact mul_nonneg (p_ij_nonneg Y i j) (maskMat_nonneg M i j)

lemma pRow_le_one {n k : ℕ} (hn : 1 < n) (Y : Matrix (Fin n) (Fin k) ℝ)
    (M : Matrix (Fin n) (Fin n) Bool) (i : Fin n) : pRow Y M i ≤ 1 := by
  calc pRow Y M i ≤ ∑ j, p_ij Y i j := by
        refine Finset.sum_le_sum fun j _ => ?_
        simp only [masked_p_ij, Matrix.of_apply]
        exact mul_le_of_le_one_right (p_ij_nonneg Y i j) (maskMat_le_one M i j)
    _ = 1 := p_ij_row_sum hn Y i

/-- C2: for every valid call to `_loss_grad_lbfgs` (at least two samples, as
enforced by `fit`'s `ensure_min_samples=2`), the probability matrix computed
from the reshaped transform is row-stochastic with a zero diagonal: every row
sums to `1` and `P[i][i] = 0`, thanks to the infinite diagonal distance and
`exp(-inf) = 0` inside the softmax. -/
theorem nca_p_row_stochastic {n k d : ℕ} (hn : 1 < n) (a : Fin (k * d) → ℝ)
    (X : Matrix (Fin n) (Fin d) ℝ) :
    (∀ i, ∑ j, p_ij (X_embedded X (reshape k d a)) i j = 1) ∧
    (∀ i, p_ij (X_embedded X (reshape k d a)) i i = 0) :=
  ⟨fun i => p_ij_row_sum hn _ i, fun i => p_ij_diag _ i⟩

/-- Witness for C2 at `n = 2`, `k = d = 1`, zero transform and zero data. -/
theorem nca_p_row_stochastic_witness :
    (1 : ℕ) < 2 ∧
    ((∀ i, ∑ j, p_ij (X_embedded (0 : Matrix (Fin 2) (Fin 1) ℝ) (reshape 1 1 0)) i j = 1) ∧
     (∀ i, p_ij (X_embedded (0 : Matrix (Fin 2) (Fin 1) ℝ) (reshape 1 1 0)) i i = 0)) :=
  ⟨by norm_num, nca_p_row_stochastic (by norm_num) 0 0⟩

/-- C3: for every valid boolean mask and every transform and data (with at
least two samples), the unsigned loss computed by the evaluator lies in
`[0, n]`. -/
theorem nca_loss_in_range {n k d : ℕ} (hn : 1 < n) (a : Fin (k * d) → ℝ)
    (X : Matrix (Fin n) (Fin d) ℝ) (M : Matrix (Fin n) (Fin n) Bool) :
    0 ≤ loss (X_embedded X (reshape k d a)) M ∧
    loss (X_embedded X (reshape k d a)) M ≤ (n : ℝ) := by
  constructor
  · exact Finset.sum_nonneg fun i _ => pRow_nonneg _ M i
  · calc loss (X_embedded X (reshape k d a)) M
        ≤ ∑ _i : Fin n, (1 : ℝ) := Finset.sum_le_sum fun i _ => pRow_le_one hn _ M i
      _ = (n : ℝ) := by simp

/-- Witness for C3 at `n = 2`, `k = d = 1`, zero data and the all-true mask. -/
theorem nca_loss_in_range_witness :
    (1 : ℕ) < 2 ∧
    (0 ≤ loss (X_embedded (0 : Matrix (Fin 2) (Fin 1) ℝ) (reshape 1 1 0))
        (Matrix.of fun _ _ => true) ∧
     loss (X_embedded (0 : Matrix (Fin 2) (Fin 1) ℝ) (reshape 1 1 0))
        (Matrix.of fun _ _ => true) ≤ (2 : ℝ)) := by
  refine ⟨by norm_num, ?_⟩
  have h := nca_loss_in_range (n := 2) (k := 1) (d := 1) (by norm_num) 0 0
    (Matrix.of fun _ _ => true)
  exact ⟨h.1, by exact_mod_cast h.2⟩

/-- C9: if the same-class mask is true everywhere (all samples share one
label), the evaluator is well defined and, in exact arithmetic, the unsigned
loss equals exactly `n`: every row of `P` sums to `1` and the diagonal
contributes `0`. -/
theorem nca_saturated_mask_loss {n k d : ℕ} (hn : 1 < n) (a : Fin (k * d) → ℝ)
    (X : Matrix (Fin n) (Fin d) ℝ) :
    loss (X_embedded X (reshape k d a)) (Matrix.of fun _ _ => true) = (n : ℝ) := by
  have h1 : ∀ i, pRow (X_embedded X (reshape k d a)) (Matrix.of fun _ _ => true) i = 1 := by
    intro i
    have : pRow (X_embedded X (reshape k d a)) (Matrix.of fun _ _ => true) i
        = ∑ j, p_ij (X_embedded X (reshape k d a)) i j := by
      refine Finset.sum_congr rfl fun j _ => ?_
      simp [masked_p_ij, maskMat]
    rw [this, p_ij_row_sum hn]
  calc loss (X_embedded X (reshape k d a)) (Matrix.of fun _ _ => true)
      = ∑ _i : Fin n, (1 : ℝ) := Finset.sum_congr rfl fun i _ => h1 i
    _ = (n : ℝ) := by simp

/-- Witness for C9 at `n = 2`, `k = d = 1`, zero transform and zero data. -/
theorem nca_saturated_mask_loss_witness :
    (1 : ℕ) < 2 ∧
    loss (X_embedded (0 : Matrix (Fin 2) (Fin 1) ℝ) (reshape 1 1 0))
      (Matrix.of fun _ _ => true) = (2 : ℝ) := by
  refine ⟨by norm_num, ?_⟩
  have h := nca_saturated_mask_loss (n := 2) (k := 1) (d := 1) (by norm_num) 0 0
  exact_mod_cast h

/-- The claim's `W`, written with matrix algebra:
`P ⊙ M − P ⊙ (broadcast of the row sums of P ⊙ M as a column)`. -/
noncomputable def claimW {n : ℕ} (P : Matrix (Fin n) (Fin n) ℝ)
    (M : Matrix (Fin n) (Fin n) Bool) : Matrix (Fin n) (Fin n) ℝ :=
  Matrix.hadamard P (maskMat M) -
    Matrix.hadamard P (Matrix.of fun i _ => ∑ j, Matrix.hadamard P (maskMat M) i j)

/-- The claim's `W_sym`: `W + Wᵀ` with its diagonal overwritten by the
negated column sums of the unsymmetrized `W`. -/
noncomputable def claimWsym {n : ℕ} (P : Matrix (Fin n) (Fin n) ℝ)
    (M : Matrix (Fin n) (Fin n) Bool) : Matrix (Fin n) (Fin n) ℝ :=
  Matrix.of fun i j =>
    if i = j then -(∑ l, claimW P M l i) else (claimW P M + (claimW P M)ᵀ) i j

lemma X_embedded_eq_mul {n k d : ℕ} (X : Matrix (Fin n) (Fin d) ℝ)
    (A : Matrix (Fin k) (Fin d) ℝ) : X_embedded X A = X * Aᵀ := by
  ext i c
  simp [X_embedded, Matrix.mul_apply, Matrix.transpose_apply]

lemma weighted_eq_claimW {n k : ℕ} (Y : Matrix (Fin n) (Fin k) ℝ)
    (M : Matrix (Fin n) (Fin n) Bool) : weighted_p_ij Y M = claimW (p_ij Y) M := by
  ext i j
  simp [weighted_p_ij, claimW, masked_p_ij, pRow, Matrix.hadamard, Matrix.sub_apply]

lemma weighted_sym_eq_claimWsym {n k : ℕ} (Y : Matrix (Fin n) (Fin k) ℝ)
    (M : Matrix (Fin n) (Fin n) Bool) :
    weighted_p_ij_sym Y M = claimWsym (p_ij Y) M := by
  ext i j
  by_cases h : i = j <;>
    simp [weighted_p_ij_sym, claimWsym, h, weighted_eq_claimW,
      Matrix.add_apply, Matrix.transpose_apply]

lemma gradientMat_eq_claim {n k d : ℕ} (X : Matrix (Fin n) (Fin d) ℝ)
    (A : Matrix (Fin k) (Fin d) ℝ) (M : Matrix (Fin n) (Fin n) Bool) :
    gradientMat X A M = (2 : ℝ) • ((X * Aᵀ)ᵀ * claimWsym (p_ij (X * Aᵀ)) M * X) := by
  rw [← X_embedded_eq_mul, ← weighted_sym_eq_claimWsym]
  ext c j
  simp [gradientMat, Matrix.smul_apply, Matrix.mul_apply, Matrix.transpose_apply,
    smul_eq_mul]

/-- C1: the pair returned by `_loss_grad_lbfgs` satisfies the spec's closed
form: the objective is `s` times the sum of the entries of `P ⊙ M`, and the
gradient is `s` times the flattening of `2 · Yᵀ · W_sym · X` with
`Y = X · Lᵀ`, `W = P ⊙ M − P ⊙ (broadcast of the row sums of P ⊙ M)` and
`W_sym = W + Wᵀ` with its diagonal overwritten by the negated column sums of
the unsymmetrized `W`. -/
theorem nca_loss_grad_formula {n k d : ℕ} (m : NCAModel) (a : Fin (k * d) → ℝ)
    (X : Matrix (Fin n) (Fin d) ℝ) (M : Matrix (Fin n) (Fin n) Bool) (s : ℝ) :
    (lossGradLbfgs m a X M s).loss =
      s * ∑ i, ∑ j, Matrix.hadamard (p_ij (X * (reshape k d a)ᵀ)) (maskMat M) i j ∧
    (lossGradLbfgs m a X M s).grad = fun idx =>
      s * ravel ((2 : ℝ) •
        ((X * (reshape k d a)ᵀ)ᵀ * claimWsym (p_ij (X * (reshape k d a)ᵀ)) M * X)) idx := by
  constructor
  · show s * loss (X_embedded X (reshape k d a)) M = _
    rw [X_embedded_eq_mul]
    simp [loss, pRow, masked_p_ij, Matrix.hadamard]
  · show (fun idx => s * ravel (gradientMat X (reshape k d a) M) idx) = _
    rw [gradientMat_eq_claim]

/-- C4: the evaluator is a deterministic function of its explicit arguments:
the numeric pair `(loss, gradient)` does not depend on the instance state —
in particular not on the call counter `n_iter_`, which only affects the
progress display. -/
theorem nca_evaluator_deterministic {n k d : ℕ} (m₁ m₂ : NCAModel)
    (a : Fin (k * d) → ℝ) (X : Matrix (Fin n) (Fin d) ℝ)
    (M : Matrix (Fin n) (Fin n) Bool) (s : ℝ) :
    (lossGradLbfgs m₁ a X M s).loss = (lossGradLbfgs m₂ a X M s).loss ∧
    (lossGradLbfgs m₁ a X M s).grad = (lossGradLbfgs m₂ a X M s).grad :=
  ⟨rfl, rfl⟩

/-- C10: one evaluator call increments the call counter `n_iter_` by exactly
one and leaves every other field of the instance state unchanged (its array
arguments are only read, never written: `A = A.reshape(...)` rebinds a local
name and `np.fill_diagonal` is only applied to freshly allocated arrays). -/
theorem nca_frame_effect {n k d : ℕ} (m : NCAModel) (a : Fin (k * d) → ℝ)
    (X : Matrix (Fin n) (Fin d) ℝ) (M : Matrix (Fin n) (Fin n) Bool) (s : ℝ) :
    (lossGradLbfgs m a X M s).model.n_iter = m.n_iter + 1 ∧
    (lossGradLbfgs m a X M s).model.num_dims = m.num_dims ∧
    (lossGradLbfgs m a X M s).model.max_iter = m.max_iter ∧
    (lossGradLbfgs m a X M s).model.tol = m.tol ∧
    (lossGradLbfgs m a X M s).model.verbose = m.verbose :=
  ⟨rfl, rfl, rfl, rfl, rfl⟩

/-- Source expression `X.max(axis=0)` for column `j` (requires at least one
sample, guaranteed by `ensure_min_samples=2`). -/
noncomputable def colMax {n d : ℕ} [NeZero n] (X : Matrix (Fin n) (Fin d) ℝ)
    (j : Fin d) : ℝ :=
  Finset.univ.sup'
    (Finset.univ_nonempty_iff.mpr ⟨⟨0, Nat.pos_of_ne_zero (NeZero.ne n)⟩⟩)
    fun i => X i j

/-- Source expression `X.min(axis=0)` for column `j`. -/
noncomputable def colMin {n d : ℕ} [NeZero n] (X : Matrix (Fin n) (Fin d) ℝ)
    (j : Fin d) : ℝ :=
  Finset.univ.inf'
    (Finset.univ_nonempty_iff.mpr ⟨⟨0, Nat.pos_of_ne_zero (NeZero.ne n)⟩⟩)
    fun i => X i j

/-- Source lines `A = np.zeros((num_dims, d))` followed by
`np.fill_diagonal(A, 1./(np.maximum(X.max(axis=0)-X.min(axis=0), EPS)))`:
`fill_diagonal` writes `1 / max(range_j, EPS)` at position `(j, j)` for every
`j < min(num_dims, d)` and leaves every other entry zero. -/
noncomputable def initTransform {n d : ℕ} [NeZero n] (k : ℕ)
    (X : Matrix (Fin n) (Fin d) ℝ) : Matrix (Fin k) (Fin d) ℝ :=
  Matrix.of fun i j =>
    if (i : ℕ) = (j : ℕ) then 1 / max (colMax X j - colMin X j) EPS else 0

/-- Smallest positive representable IEEE double-precision value (the
subnormal `2 ^ (-1074)`), which is what the claim says the floor constant
`ε` is. -/
noncomputable def smallestPosDouble : ℝ := 1 / 2 ^ 1074

lemma colMax_zero : colMax (0 : Matrix (Fin 2) (Fin 1) ℝ) 0 = 0 := by
  have : (fun i => (0 : Matrix (Fin 2) (Fin 1) ℝ) i 0) = fun _ => (0 : ℝ) := by
    funext i; simp
  simp [colMax, this]

lemma colMin_zero : colMin (0 : Matrix (Fin 2) (Fin 1) ℝ) 0 = 0 := by
  have : (fun i => (0 : Matrix (Fin 2) (Fin 1) ℝ) i 0) = fun _ => (0 : ℝ) := by
    funext i; simp
  simp [colMin, this]

/-- Counterexample to C7 as stated: with a constant (zero-variance) feature
column, the code's initial diagonal entry is `1 / EPS = 2 ^ 52` (the
reciprocal of machine epsilon), not the reciprocal of the smallest positive
representable double-precision value (`2 ^ 1074`) that the claim's wording
for `ε` prescribes. -/
theorem nca_init_eps_cex :
    initTransform 1 (0 : Matrix (Fin 2) (Fin 1) ℝ) 0 0 = 2 ^ 52 ∧
    (2 : ℝ) ^ 52 ≠
      1 / max (colMax (0 : Matrix (Fin 2) (Fin 1) ℝ) 0 -
        colMin (0 : Matrix (Fin 2) (Fin 1) ℝ) 0) smallestPosDouble := by
  constructor
  · simp only [initTransform, Matrix.of_apply, if_pos rfl, colMax_zero, colMin_zero,
      sub_zero, EPS]
    rw [max_eq_right (by norm_num)]
    norm_num
  · simp only [colMax_zero, colMin_zero, sub_zero, smallestPosDouble]
    rw [max_eq_right (by norm_num)]
    norm_num

/-- C7 (amended): the initial transform is zero off the diagonal, each
diagonal entry `j < min(k, d)` is `1 / max(range_j, EPS)` where `EPS` is the
machine epsilon `2 ^ (-52)` of IEEE double precision (not the smallest
positive representable value), and a constant feature column yields the
finite entry `1 / EPS` with no division by zero. -/
theorem nca_init_transform_spec {n d : ℕ} [NeZero n] (k : ℕ)
    (X : Matrix (Fin n) (Fin d) ℝ) :
    (∀ (i : Fin k) (j : Fin d), (i : ℕ) ≠ (j : ℕ) → initTransform k X i j = 0) ∧
    (∀ (i : Fin k) (j : Fin d), (i : ℕ) = (j : ℕ) →
      initTransform k X i j = 1 / max (colMax X j - colMin X j) EPS) ∧
    (∀ (i : Fin k) (j : Fin d) (c : ℝ), (i : ℕ) = (j : ℕ) → (∀ r, X r j = c) →
      initTransform k X i j = 1 / EPS) := by
  refine ⟨fun i j h => by simp [initTransform, h], fun i j h => by simp [initTransform, h], ?_⟩
  intro i j c hij hc
  have hmax : colMax X j = c := by
    have : (fun i => X i j) = fun _ => c := funext hc
    simp [colMax, this]
  have hmin : colMin X j = c := by
    have : (fun i => X i j) = fun _ => c := funext hc
    simp [colMin, this]
  have hEPS : (0 : ℝ) ≤ EPS := by simp only [EPS]; positivity
  simp [initTransform, hij, hmax, hmin, max_eq_right hEPS]

/-- Witness for the amended C7 at a constant zero column (`n = 2`, `d = 1`,
`k = 1`). -/
theorem nca_init_transform_spec_witness :
    ((0 : ℕ) = (0 : ℕ)) ∧ (∀ r : Fin 2, (0 : Matrix (Fin 2) (Fin 1) ℝ) r 0 = 0) ∧
    initTransform 1 (0 : Matrix (Fin 2) (Fin 1) ℝ) 0 0 = 1 / EPS :=
  ⟨rfl, fun _r => rfl,
    (nca_init_transform_spec 1 (0 : Matrix (Fin 2) (Fin 1) ℝ)).2.2 0 0 0 rfl
      fun _r => rfl⟩

/-- Result of the external `scipy.optimize.minimize` call, as consumed by the
tail of `NCA.fit`: the final flattened parameter vector `x`, the `success`
flag, the associated `message`, and the iteration count `nit`. -/
structure OptResult (p : ℕ) where
  x : Fin p → ℝ
  success : Bool
  message : String
  nit : ℕ

/-- Observable outcome of `NCA.fit` after the optimizer returns. -/
structure FitOutcome (k d : ℕ) where
  transformer : Matrix (Fin k) (Fin d) ℝ
  n_iter : ℕ
  warnings : List String

/-- Model of the tail of `NCA.fit` after `minimize` returns: sets
`self.transformer_ = opt_result.x.reshape(-1, X.shape[1])` and
`self.n_iter_ = opt_result.nit`, and — only inside the `if self.verbose:`
block — issues a `ConvergenceWarning` when `opt_result.success` is false.
No exception is raised on non-convergence (the function is total). -/
def fitFinish {k d : ℕ} (verbose : Bool) (res : OptResult (k * d)) : FitOutcome k d :=
  { transformer := reshape k d res.x
    n_iter := res.nit
    warnings :=
      if verbose && !res.success then
        ["ConvergenceWarning: NCA did not converge: " ++ res.message] else [] }

/-- Counterexample to C5 as stated: a non-converged run (`success = false`)
with the default `verbose = false` still returns the optimizer's parameters
as `transformer_`, but emits no warning at all — the `ConvergenceWarning` in
the source is nested inside the `if self.verbose:` block. -/
theorem nca_warning_cex :
    (⟨fun _ => (0 : ℝ), false, "msg", 3⟩ : OptResult (1 * 1)).success = false ∧
    (fitFinish false (⟨fun _ => (0 : ℝ), false, "msg", 3⟩ : OptResult (1 * 1))).warnings
      = [] ∧
    (fitFinish false (⟨fun _ => (0 : ℝ), false, "msg", 3⟩ : OptResult (1 * 1))).transformer
      = reshape 1 1 (fun _ => 0) :=
  ⟨rfl, rfl, rfl⟩

/-- C5 (amended): when the optimizer finishes without success, `fit` still
returns a model whose `transformer_` is the optimizer's best-found
parameters and whose `n_iter_` is the reported iteration count, and it never
raises; the `ConvergenceWarning` is emitted if and only if `verbose` is
enabled. -/
theorem nca_nonconvergence_behavior {k d : ℕ} (verbose : Bool)
    (res : OptResult (k * d)) (h : res.success = false) :
    (fitFinish verbose res).transformer = reshape k d res.x ∧
    (fitFinish verbose res).n_iter = res.nit ∧
    ((fitFinish verbose res).warnings ≠ [] ↔ verbose = true) := by
  refine ⟨rfl, rfl, ?_⟩
  cases verbose <;> simp [fitFinish, h]

/-- Witness for the amended C5 with `verbose = true` and a failed result. -/
theorem nca_nonconvergence_behavior_witness :
    (⟨fun _ => (0 : ℝ), false, "msg", 3⟩ : OptResult (1 * 1)).success = false ∧
    ((fitFinish true (⟨fun _ => (0 : ℝ), false, "msg", 3⟩ : OptResult (1 * 1))).transformer
        = reshape 1 1 (fun _ => 0) ∧
     (fitFinish true (⟨fun _ => (0 : ℝ), false, "msg", 3⟩ : OptResult (1 * 1))).n_iter = 3 ∧
     ((fitFinish true (⟨fun _ => (0 : ℝ), false, "msg", 3⟩ : OptResult (1 * 1))).warnings ≠ []
        ↔ true = true)) :=
  ⟨rfl, nca_nonconvergence_behavior true ⟨fun _ => (0 : ℝ), false, "msg", 3⟩ rfl⟩

/-- State update of one evaluator call, used to trace the counter through a
run of `fit`. -/
noncomputable def evalStep {n k d : ℕ} (a : Fin (k * d) → ℝ)
    (X : Matrix (Fin n) (Fin d) ℝ) (M : Matrix (Fin n) (Fin n) Bool) (s : ℝ)
    (m : NCAModel) : NCAModel :=
  (lossGradLbfgs m a X M s).model

/-- Successive values taken by `self.n_iter_` during one run of `fit`:
`fit` initializes the counter to `0`, `minimize` invokes the evaluator
`calls` times (each call increments the counter), and after `minimize`
returns, `fit` executes `self.n_iter_ = opt_result.nit`, where `nit` is the
iteration count reported by the external optimizer. -/
noncomputable def fitCounterTrace {n k d : ℕ} (a : Fin (k * d) → ℝ)
    (X : Matrix (Fin n) (Fin d) ℝ) (M : Matrix (Fin n) (Fin n) Bool) (s : ℝ)
    (calls nit : ℕ) (m₀ : NCAModel) : List ℕ :=
  ((List.range (calls + 1)).map fun j =>
    ((evalStep a X M s)^[j] { m₀ with n_iter := 0 }).n_iter) ++ [nit]

/-- Counterexample to C6 as stated: in a run where the optimizer made one
evaluator call but reports `nit = 0` iterations (L-BFGS-B always evaluates
the objective at least once more than its iteration count, e.g. a
`maxiter = 0` run or any converged run with line searches), the counter
takes the values `0, 1, 0`: the final assignment `self.n_iter_ =
opt_result.nit` decreases it. -/
theorem nca_counter_trace_cex :
    fitCounterTrace (n := 2) (k := 1) (d := 1) 0 0 (Matrix.of fun _ _ => true)
        (-1) 1 0 ⟨none, 100, none, false, 7⟩ = [0, 1, 0] ∧
    ¬ List.Chain' (· ≤ ·) [0, 1, 0] :=
  ⟨rfl, by
    intro h
    rw [List.chain'_cons, List.chain'_cons] at h
    omega⟩

/-- C6 (amended): the counter starts at `0`, each evaluator call increases it
by exactly one (so it never decreases while the optimizer runs), and the
final statement of `fit` overwrites it with the optimizer's reported
iteration count `nit` — a value that may be smaller than the number of
evaluator calls, so that last assignment can decrease the counter. -/
theorem nca_counter_updates {n k d : ℕ} (a : Fin (k * d) → ℝ)
    (X : Matrix (Fin n) (Fin d) ℝ) (M : Matrix (Fin n) (Fin n) Bool) (s : ℝ)
    (m : NCAModel) (res : OptResult (k * d)) (verbose : Bool) :
    (lossGradLbfgs m a X M s).model.n_iter = m.n_iter + 1 ∧
    m.n_iter ≤ (lossGradLbfgs m a X M s).model.n_iter ∧
    (fitFinish verbose res).n_iter = res.nit :=
  ⟨rfl, Nat.le_succ _, rfl⟩

/-- Dimensions of a 2-D numpy array. -/
structure Shape2 where
  rows : ℕ
  cols : ℕ
deriving DecidableEq, Repr

/-- Shape result of `a.reshape(-1, d)`: numpy raises a `ValueError`
("cannot reshape") exactly when the length is not divisible by `d`. -/
def reshapeShape (lenA d : ℕ) : Except String Shape2 :=
  if lenA % d = 0 then Except.ok ⟨lenA / d, d⟩
  else Except.error "cannot reshape"

/-- Shape result of `np.dot` on 2-D arrays: the inner dimensions must
agree. -/
def dotShape (A B : Shape2) : Except String Shape2 :=
  if A.cols = B.rows then Except.ok ⟨A.rows, B.cols⟩
  else Except.error "shapes not aligned"

/-- Numpy broadcasting of one axis: the two sizes must be equal or one of
them must be `1`. -/
def bcastDim (a b : ℕ) : Except String ℕ :=
  if a = b then Except.ok a
  else if a = 1 then Except.ok b
  else if b = 1 then Except.ok a
  else Except.error "operands could not be broadcast together"

/-- Shape of an elementwise binary operation (`*`, `-`, `+`) between 2-D
arrays under numpy broadcasting. -/
def bcast2 (A B : Shape2) : Except String Shape2 :=
  match bcastDim A.rows B.rows, bcastDim A.cols B.cols with
  | Except.ok r, Except.ok c => Except.ok ⟨r, c⟩
  | Except.error e, _ => Except.error e
  | _, Except.error e => Except.error e

/-- Shape result of `pairwise_distances(Y, squared=True)`: sklearn's
`check_pairwise_arrays` validates the input through `check_array` with the
defaults `ensure_min_samples=1` and `ensure_min_features=1`, raising a
`ValueError` ("Found array with 0 sample(s)" / "0 feature(s)") on an empty
axis; otherwise the distance matrix is square in the number of rows. -/
def pairwiseShape (Y : Shape2) : Except String Shape2 :=
  if Y.rows = 0 then Except.error "Found array with 0 sample(s)"
  else if Y.cols = 0 then Except.error "Found array with 0 feature(s)"
  else Except.ok ⟨Y.rows, Y.rows⟩

/-- Shape-level model of `_loss_grad_lbfgs`: it tracks the dimensions of
every array through the source's computation, failing exactly where the
source raises (the entry values never influence which operations raise).
Inputs: the length of the flattened transform `a`, the data shape `n × d`,
and the mask shape `M`.  Steps, in source order: `A.reshape(-1, d)`;
`np.dot(X, A.T)`; `pairwise_distances` (including sklearn's input
validation) and `fill_diagonal` (no constraint);
`-p_ij - logsumexp(-p_ij, axis=1)[:, np.newaxis]` (broadcast);
`p_ij * mask` (broadcast); `p = masked.sum(axis=1, keepdims=True)`;
`masked_p_ij - p_ij * p` (broadcasts); `w + w.T`; `fill_diagonal`; the two
final `dot`s producing the gradient. -/
def lossGradShape (lenA d n : ℕ) (M : Shape2) : Except String Shape2 :=
  match reshapeShape lenA d with
  | Except.error e => Except.error e
  | Except.ok A =>
    match dotShape ⟨n, d⟩ ⟨A.cols, A.rows⟩ with
    | Except.error e => Except.error e
    | Except.ok Y =>
      match pairwiseShape Y with
      | Except.error e => Except.error e
      | Except.ok D =>
        match bcast2 D ⟨D.rows, 1⟩ with
        | Except.error e => Except.error e
        | Except.ok P =>
          match bcast2 P M with
          | Except.error e => Except.error e
          | Except.ok Pm =>
            match bcast2 P ⟨Pm.rows, 1⟩ with
            | Except.error e => Except.error e
            | Except.ok Pp =>
              match bcast2 Pm Pp with
              | Except.error e => Except.error e
              | Except.ok W =>
                match bcast2 W ⟨W.cols, W.rows⟩ with
                | Except.error e => Except.error e
                | Except.ok Wsym =>
                  match dotShape ⟨Y.cols, Y.rows⟩ Wsym with
                  | Except.error e => Except.error e
                  | Except.ok G1 => dotShape G1 ⟨n, d⟩

/-- True exactly on the non-raising outcomes. -/
def isOkE {ε α : Type} : Except ε α → Bool
  | Except.ok _ => true
  | Except.error _ => false

/-- Counterexample to C8 as stated: with `n = 2` samples, `d = 1` feature, a
length-2 transform vector and a `1 × 1` mask — whose dimensions disagree
with `X`'s row count — the evaluator raises no shape error, because numpy
broadcasts the `1 × 1` mask against the `2 × 2` probability matrix. -/
theorem nca_shape_error_cex :
    lossGradShape 2 1 2 ⟨1, 1⟩ = Except.ok ⟨2, 1⟩ ∧ (1 : ℕ) ≠ 2 :=
  ⟨rfl, by decide⟩

lemma bcastDim_self (a : ℕ) : bcastDim a a = Except.ok a := by
  simp [bcastDim]

lemma bcastDim_one_right (a : ℕ) : bcastDim a 1 = Except.ok a := by
  by_cases h : a = 1 <;> simp [bcastDim, h]

lemma bcastDim_good {n m : ℕ} (hn1 : n ≠ 1) (h : m = n ∨ m = 1) :
    bcastDim n m = Except.ok n := by
  rcases h with h | h
  · subst h; exact bcastDim_self _
  · subst h; exact bcastDim_one_right _

lemma bcastDim_bad {n m : ℕ} (hn1 : n ≠ 1) (h1 : m ≠ n) (h2 : m ≠ 1) :
    bcastDim n m = Except.error "operands could not be broadcast together" := by
  simp [bcastDim, Ne.symm h1, hn1, h2]

/-- C8 (amended): for positive `d` and at least two samples, the evaluator
raises exactly when the flattened transform's length is not divisible by
`d`, or is zero (the reshaped transform then has zero rows and the
embedding zero columns, which sklearn's input validation inside
`pairwise_distances` rejects), or when the mask's dimensions are not
broadcastable against `(n, n)` — that is, when either mask dimension
differs from both `n` and `1`. -/
theorem nca_shape_error_iff (lenA d n : ℕ) (M : Shape2) (hd : 0 < d)
    (hn : 1 < n) :
    isOkE (lossGradShape lenA d n M) = true ↔
      (lenA % d = 0 ∧ 0 < lenA ∧
        (M.rows = n ∨ M.rows = 1) ∧ (M.cols = n ∨ M.cols = 1)) := by
  obtain ⟨mr, mc⟩ := M
  have hn1 : n ≠ 1 := by omega
  have hn0 : n ≠ 0 := by omega
  by_cases hA : lenA % d = 0
  · have hre : reshapeShape lenA d = Except.ok ⟨lenA / d, d⟩ := by
      simp [reshapeShape, hA]
    by_cases h0 : lenA = 0
    · subst h0
      simp [lossGradShape, hre, dotShape, pairwiseShape, hn0, Nat.zero_div, isOkE]
    · have hpos : 0 < lenA := Nat.pos_of_ne_zero h0
      have hq : (lenA / d) ≠ 0 :=
        Nat.pos_iff_ne_zero.mp
          (Nat.div_pos (Nat.le_of_dvd hpos (Nat.dvd_of_mod_eq_zero hA)) hd)
      have hpw : pairwiseShape ⟨n, lenA / d⟩ = Except.ok ⟨n, n⟩ := by
        simp [pairwiseShape, hn0, hq]
      by_cases hr : mr = n ∨ mr = 1
      · by_cases hc : mc = n ∨ mc = 1
        · simp [lossGradShape, hre, dotShape, hpw, bcast2, bcastDim_self,
            bcastDim_one_right, bcastDim_good hn1 hr, bcastDim_good hn1 hc,
            isOkE, hA, hpos, hr, hc]
        · have hcn : mc ≠ n := fun h => hc (Or.inl h)
          have hc1 : mc ≠ 1 := fun h => hc (Or.inr h)
          simp [lossGradShape, hre, dotShape, hpw, bcast2, bcastDim_self,
            bcastDim_one_right, bcastDim_good hn1 hr, bcastDim_bad hn1 hcn hc1,
            isOkE, hc]
      · have hrn : mr ≠ n := fun h => hr (Or.inl h)
        have hr1 : mr ≠ 1 := fun h => hr (Or.inr h)
        simp [lossGradShape, hre, dotShape, hpw, bcast2, bcastDim_self,
          bcastDim_one_right, bcastDim_bad hn1 hrn hr1, isOkE, hr]
  · have hre : reshapeShape lenA d = Except.error "cannot reshape" := by
      simp [reshapeShape, hA]
    simp [lossGradShape, hre, isOkE, hA]

/-- Witness for the amended C8 at a conforming instance: `lenA = 2`,
`d = 1`, `n = 2` and an exact `2 × 2` mask. -/
theorem nca_shape_error_iff_witness :
    (0 < 1 ∧ (1 : ℕ) < 2) ∧
    (isOkE (lossGradShape 2 1 2 ⟨2, 2⟩) = true ↔
      (2 % 1 = 0 ∧ (0 : ℕ) < 2 ∧
        ((2 : ℕ) = 2 ∨ (2 : ℕ) = 1) ∧ ((2 : ℕ) = 2 ∨ (2 : ℕ) = 1))) :=
  ⟨⟨by decide, by decide⟩, nca_shape_error_iff 2 1 2 ⟨2, 2⟩ (by decide) (by decide)⟩
